import Mathlib

/-!
Verification of the contact-extraction and normalization core of
Advanced Contact Finder Pro (`src/app.py`).

Strings from the Python source are embedded as `List Char`; Python's
ASCII-oriented `str.lower()` is `Char.toLower` mapped over the list
(all inputs ever fed to these functions by the program are ASCII).
Python sets are embedded as duplicate-free lists (built with `sinsert`)
at the extractor layer and as `Finset` at the aggregation layer, where
Python `==` on sets is `Finset` equality.
-/

/-- Characters of the embedded strings. -/
abbrev Str := List Char

/-- Turn a Lean string literal into the embedded representation. -/
def strOf (s : String) : Str := s.toList

/-- Python `str.lower()` restricted to ASCII: `Char.toLower` on every char. -/
def lowerStr (l : Str) : Str := l.map Char.toLower

/-- Python `c in s` for a single character. -/
def hasChar (c : Char) (l : Str) : Bool := l.any (fun x => x == c)

/-- Python `s.split(sep)` for a one-character separator.
The result is always non-empty. -/
def splitChar (sep : Char) : Str → List Str
  | [] => [[]]
  | c :: rest =>
    match splitChar sep rest with
    | [] => [[]]
    | h :: t => if c = sep then [] :: h :: t else (c :: h) :: t

/-- Does `pat` occur at the start of `l`? -/
def leadsWith : Str → Str → Bool
  | [], _ => true
  | _ :: _, [] => false
  | a :: as, b :: bs => a == b && leadsWith as bs

/-- Python `re.search` for a pattern that is a literal string:
does `pat` occur anywhere inside `l`? -/
def isSubstr (pat : Str) : Str → Bool
  | [] => leadsWith pat []
  | c :: rest => leadsWith pat (c :: rest) || isSubstr pat rest

/-- Python whitespace for `str.strip()` (ASCII portion). -/
def isPySpace (c : Char) : Bool :=
  c == ' ' || c == '\t' || c == '\n' || c == '\r' || c == '\x0b' || c == '\x0c'

/-- Python `str.strip()`. -/
def pyStrip (l : Str) : Str :=
  ((l.dropWhile isPySpace).reverse.dropWhile isPySpace).reverse

/-- Add an element to a duplicate-free list modelling a Python `set`. -/
def sinsert (x : Str) (l : List Str) : List Str :=
  if x ∈ l then l else l ++ [x]

/-- The set `self.excluded_domains` of `EnhancedWebScraper.__init__` (src/app.py). -/
def excluded_domains : List Str :=
  [strOf "example.com", strOf "test.com", strOf "domain.com", strOf "yoursite.com",
   strOf "google.com", strOf "facebook.com", strOf "twitter.com", strOf "linkedin.com",
   strOf "instagram.com", strOf "youtube.com", strOf "github.com", strOf "sentry.io",
   strOf "gravatar.com", strOf "w3.org", strOf "schema.org", strOf "mozilla.org"]

/-- The `fake_patterns` regex list of `is_valid_email`; every pattern is a
literal string (the single escape `\.` denotes a literal dot), so
`re.search` is literal-substring search. -/
def fake_patterns : List Str :=
  [strOf "noreply", strOf "no-reply", strOf "donotreply", strOf "test@",
   strOf "admin@example", strOf "user@example", strOf "@example.com",
   strOf "placeholder", strOf "dummy", strOf "fake"]

/-- Embedding of `EnhancedWebScraper.is_valid_email` (src/app.py:239-262). The source's
`try/except` returns `False` on any error; the only fallible step,
`email.split('@')[1]`, is guarded by the preceding `'@' not in email`
check and is embedded as an `Option` lookup whose `none` arm returns
`false`. -/
def is_valid_email (email : Str) : Bool :=
  if !(hasChar '@' email) then false
  else
    match (splitChar '@' email)[1]? with
    | none => false
    | some d1 =>
      if !(hasChar '.' d1) then false
      else if excluded_domains.contains (lowerStr d1) then false
      else if fake_patterns.any (fun p => isSubstr p (lowerStr email)) then false
      else true

/-!
A small backtracking regular-expression engine with Python `re` semantics
(leftmost match, alternatives tried left to right, greedy quantifiers).
Every repetition in the source's patterns is over a one-character class,
so repetition is a primitive over classes (`repCls`, with `none` as an
unbounded upper limit). `grp` is a capturing group (the source's groups
are never nested), `bnd` is the word boundary `\b`.
-/

inductive RE where
  | eps : RE
  | cls : (Char → Bool) → RE
  | seq : RE → RE → RE
  | alt : RE → RE → RE
  | opt : RE → RE
  | repCls : (Char → Bool) → Nat → Option Nat → RE
  | grp : RE → RE
  | bnd : RE

/-- The character preceding the current position after consuming `taken`. -/
def prevAfter (prev : Option Char) (taken : Str) : Option Char :=
  match taken.getLast? with
  | some c => some c
  | none => prev

/-- Greedy repetition driver: try consuming `n` characters, then `n - 1`,
down to `lo`, calling the continuation `k` after each attempt. -/
def tryLens (k : Option Char → Str → List Str → Option α) (prev : Option Char)
    (s : Str) (caps : List Str) (lo : Nat) : Nat → Option α
  | 0 => if lo = 0 then k prev s caps else none
  | Nat.succ n =>
    if Nat.succ n < lo then none
    else
      match k (prevAfter prev (s.take (n + 1))) (s.drop (n + 1)) caps with
      | some r => some r
      | none => tryLens k prev s caps lo n

/-- Python `\w` (ASCII portion). -/
def isWordChar (c : Char) : Bool := c.isAlphanum || c == '_'

def isWordOpt : Option Char → Bool
  | some c => isWordChar c
  | none => false

/-- The matcher: `mre re prev s caps k` matches `re` against a front
segment of `s` (with `prev` the character just before `s`, for `\b`),
accumulating captures, and hands the state after the match to `k`.
Backtracking is by returning `none`. -/
def mre (re : RE) (prev : Option Char) (s : Str) (caps : List Str)
    (k : Option Char → Str → List Str → Option α) : Option α :=
  match re with
  | .eps => k prev s caps
  | .bnd => if isWordOpt prev != isWordOpt s.head? then k prev s caps else none
  | .cls p =>
    match s with
    | [] => none
    | c :: rest => if p c then k (some c) rest caps else none
  | .seq a b => mre a prev s caps (fun prev2 s2 caps2 => mre b prev2 s2 caps2 k)
  | .alt a b =>
    match mre a prev s caps k with
    | some r => some r
    | none => mre b prev s caps k
  | .opt a =>
    match mre a prev s caps k with
    | some r => some r
    | none => k prev s caps
  | .repCls p lo hi =>
    let run := (s.takeWhile p).length
    let top := match hi with | some h => min h run | none => run
    if top < lo then none else tryLens k prev s caps lo top
  | .grp a =>
    mre a prev s caps (fun prev2 s2 caps2 =>
      k prev2 s2 (caps2 ++ [s.take (s.length - s2.length)]))

/-- Longest-preferred match of `re` at the current position: the number of
characters consumed and the captures. -/
def matchHere (re : RE) (prev : Option Char) (s : Str) : Option (Nat × List Str) :=
  mre re prev s [] (fun _ s2 caps => some (s.length - s2.length, caps))

/-- Python `re.findall`: non-overlapping matches, scanning left to right.
Structural recursion on a fuel argument (each step either stops or consumes
at least one character, so `s.length + 1` fuel never runs out). -/
def findallAux (re : RE) : Nat → Option Char → Str → List (Str × List Str)
  | 0, _, _ => []
  | fuel + 1, prev, s =>
    match matchHere re prev s with
    | some (n, caps) =>
      if n = 0 then
        match s with
        | [] => [([], caps)]
        | c :: rest => ([], caps) :: findallAux re fuel (some c) rest
      else
        match s with
        | [] => [([], caps)]
        | _ :: _ =>
          (s.take n, caps) :: findallAux re fuel (prevAfter prev (s.take n)) (s.drop n)
    | none =>
      match s with
      | [] => []
      | c :: rest => findallAux re fuel (some c) rest

def findall (re : RE) (s : Str) : List (Str × List Str) :=
  findallAux re (s.length + 1) none s

/-- A literal character in a pattern. -/
def chr (c : Char) : RE := .cls (fun x => x == c)

/-- A literal character under `re.IGNORECASE` (ASCII). -/
def cichr (c : Char) : RE := .cls (fun x => x.toLower == c.toLower)

/-- A literal string under `re.IGNORECASE`. -/
def ciLit (s : Str) : RE := s.foldr (fun c r => .seq (cichr c) r) .eps

def seqL (l : List RE) : RE := l.foldr .seq .eps

/-! The character classes of `EnhancedWebScraper.__init__` patterns. -/

/-- The class `[A-Za-z0-9._%+-]`. -/
def emailLocalCls (c : Char) : Bool :=
  c.isAlphanum || c == '.' || c == '_' || c == '%' || c == '+' || c == '-'

/-- The class `[A-Za-z0-9.-]`. -/
def emailDomCls (c : Char) : Bool := c.isAlphanum || c == '.' || c == '-'

/-- The class `[A-Z|a-z]` — it contains a literal bar in the source. -/
def emailTldCls (c : Char) : Bool := c.isAlpha || c == '|'

def digitCls (c : Char) : Bool := c.isDigit

/-- The class `[-.\s]`. -/
def sepCls (c : Char) : Bool := c == '-' || c == '.' || isPySpace c

/-- The class `[a-zA-Z]`. -/
def alphaCls (c : Char) : Bool := c.isAlpha

/-- The regex `self.email_pattern`:
`\b[A-Za-z0-9._%+-]+@[A-Za-z0-9.-]+\.[A-Z|a-z]{2,}\b` -/
def emailRE : RE :=
  seqL [.bnd, .repCls emailLocalCls 1 none, chr '@', .repCls emailDomCls 1 none,
        chr '.', .repCls emailTldCls 2 none, .bnd]

/-- First alternative of `self.phone_pattern`:
`(?:\+?1[-.\s]?)?(?:\(?[0-9]{3}\)?[-.\s]?)?[0-9]{3}[-.\s]?[0-9]{4}` -/
def phoneAlt1 : RE :=
  seqL [.opt (seqL [.opt (chr '+'), chr '1', .opt (.cls sepCls)]),
        .opt (seqL [.opt (chr '('), .repCls digitCls 3 (some 3), .opt (chr ')'),
                    .opt (.cls sepCls)]),
        .repCls digitCls 3 (some 3), .opt (.cls sepCls), .repCls digitCls 4 (some 4)]

/-- Second alternative:
`(?:\+49[-.\s]?)?(?:\(?[0-9]{3,4}\)?[-.\s]?)?[0-9]{6,8}` -/
def phoneAlt2 : RE :=
  seqL [.opt (seqL [chr '+', chr '4', chr '9', .opt (.cls sepCls)]),
        .opt (seqL [.opt (chr '('), .repCls digitCls 3 (some 4), .opt (chr ')'),
                    .opt (.cls sepCls)]),
        .repCls digitCls 6 (some 8)]

/-- Third alternative:
`(?:\+44[-.\s]?)?(?:\(?[0-9]{3,4}\)?[-.\s]?)?[0-9]{6,8}` -/
def phoneAlt3 : RE :=
  seqL [.opt (seqL [chr '+', chr '4', chr '4', .opt (.cls sepCls)]),
        .opt (seqL [.opt (chr '('), .repCls digitCls 3 (some 4), .opt (chr ')'),
                    .opt (.cls sepCls)]),
        .repCls digitCls 6 (some 8)]

def phoneRE : RE := .alt phoneAlt1 (.alt phoneAlt2 phoneAlt3)

/-- The pattern `\s*`. -/
def sstar : RE := .repCls isPySpace 0 none

/-- First obfuscated pattern (compiled with `re.IGNORECASE`):
`([a-zA-Z0-9._%+-]+)\s*\[?\s*(?:at|@)\s*\]?\s*([a-zA-Z0-9.-]+)\s*\[?\s*(?:dot|\.)\s*\]?\s*([a-zA-Z]{2,})` -/
def obRE1 : RE :=
  seqL [.grp (.repCls emailLocalCls 1 none), sstar, .opt (chr '['), sstar,
        .alt (ciLit (strOf "at")) (chr '@'), sstar, .opt (chr ']'), sstar,
        .grp (.repCls emailDomCls 1 none), sstar, .opt (chr '['), sstar,
        .alt (ciLit (strOf "dot")) (chr '.'), sstar, .opt (chr ']'), sstar,
        .grp (.repCls alphaCls 2 none)]

/-- Second obfuscated pattern (with `re.IGNORECASE`):
`([a-zA-Z0-9._%+-]+)\s*\(at\)\s*([a-zA-Z0-9.-]+)\s*\(dot\)\s*([a-zA-Z]{2,})` -/
def obRE2 : RE :=
  seqL [.grp (.repCls emailLocalCls 1 none), sstar, ciLit (strOf "(at)"), sstar,
        .grp (.repCls emailDomCls 1 none), sstar, ciLit (strOf "(dot)"), sstar,
        .grp (.repCls alphaCls 2 none)]

/-- Third obfuscated pattern (with `re.IGNORECASE`):
`([a-zA-Z0-9._%+-]+)\s*AT\s*([a-zA-Z0-9.-]+)\s*DOT\s*([a-zA-Z]{2,})` -/
def obRE3 : RE :=
  seqL [.grp (.repCls emailLocalCls 1 none), sstar, ciLit (strOf "AT"), sstar,
        .grp (.repCls emailDomCls 1 none), sstar, ciLit (strOf "DOT"), sstar,
        .grp (.repCls alphaCls 2 none)]

/-- The email-accumulation step of `extract_contacts_from_text`: validate a
candidate, then add its lowercasing to the set. -/
def addCandidates (acc : List Str) (cands : List Str) : List Str :=
  cands.foldl (fun a c => if is_valid_email c then sinsert (lowerStr c) a else a) acc

/-- Reassembly `f"{local}@{domain}.{tld}".replace(' ', '')` of the three
captures of an obfuscation match. -/
def obfuscEmail (caps : List Str) : Str :=
  ((caps.getD 0 []) ++ strOf "@" ++ (caps.getD 1 []) ++ strOf "." ++ (caps.getD 2 []))
    |>.filter (fun c => !(c == ' '))

/-- Embedding of `EnhancedWebScraper.extract_contacts_from_text` (src/app.py:264-296):
plain email matches are validated and lowercased into the email set;
phone matches are kept when `re.sub(r'[^\d+]', '', phone)` — digits and
plus signs — has length at least 10; each obfuscated pattern's capture
triples are reassembled, validated and lowercased into the email set. -/
def extract_contacts_from_text (text : Str) : List Str × List Str :=
  let emails0 := addCandidates [] ((findall emailRE text).map Prod.fst)
  let phones :=
    ((findall phoneRE text).map Prod.fst).foldl
      (fun (a : List Str) (ph : Str) =>
        let cleaned := ph.filter (fun c => c.isDigit || c == '+')
        if 10 ≤ cleaned.length then sinsert ph a else a) []
  let emails1 := addCandidates emails0 ((findall obRE1 text).map (fun m => obfuscEmail m.2))
  let emails2 := addCandidates emails1 ((findall obRE2 text).map (fun m => obfuscEmail m.2))
  let emails3 := addCandidates emails2 ((findall obRE3 text).map (fun m => obfuscEmail m.2))
  (emails3, phones)

/-! `categorize_emails` (src/app.py:698-743). Every pattern in the
`patterns` dict is a literal string, so `re.search(pattern, local_part)`
is literal-substring search. Python dicts preserve insertion order, so
rule-groups are tried in the order written in the source. -/

def categoryPatterns : List (String × List Str) :=
  [("executive", [strOf "ceo", strOf "president", strOf "director", strOf "manager",
                  strOf "chief", strOf "geschaeftsfueh", strOf "vorstand"]),
   ("sales", [strOf "sales", strOf "business", strOf "commercial", strOf "vertrieb",
              strOf "verkauf"]),
   ("support", [strOf "support", strOf "help", strOf "service", strOf "kunde",
                strOf "customer"]),
   ("hr", [strOf "hr", strOf "personal", strOf "bewerbung", strOf "career",
           strOf "jobs", strOf "recruiting"]),
   ("technical", [strOf "tech", strOf "it", strOf "dev", strOf "admin",
                  strOf "webmaster", strOf "engineering"]),
   ("marketing", [strOf "marketing", strOf "promotion", strOf "pr", strOf "media",
                  strOf "communication"]),
   ("finance", [strOf "finance", strOf "accounting", strOf "billing", strOf "invoice",
                strOf "buchhal"]),
   ("general", [strOf "info", strOf "contact", strOf "office", strOf "hello",
                strOf "kontakt", strOf "mail"])]

/-- The category assigned to one email by the loop body of
`categorize_emails`: the first rule-group with a matching sub-pattern on
`email.split('@')[0].lower()`, else the firstname.lastname heuristic. -/
def assignCategory (email : Str) : String :=
  let lp := lowerStr ((splitChar '@' email).headD [])
  match categoryPatterns.find? (fun cp => cp.2.any (fun p => isSubstr p lp)) with
  | some cp => cp.1
  | none =>
    if hasChar '.' lp && (splitChar '.' lp).length == 2 then "personal" else "general"

/-- The order of the `categories` dict literal in `categorize_emails`,
which is the key order of the returned dict. -/
def categoryOrder : List String :=
  ["executive", "sales", "support", "hr", "general", "technical", "marketing",
   "finance", "personal"]

/-- Result of `categorize_emails`: the source appends each email to exactly
one category list (first match wins) and drops empty categories; grouping
by the assigned category in the dict's key order is the same map. -/
def categorize_emails (emails : List Str) : List (String × List Str) :=
  (categoryOrder.map (fun c => (c, emails.filter (fun e => assignCategory e == c)))).filter
    (fun cv => !cv.2.isEmpty)

/-! `parse_markdown_table` (src/app.py:813-852), embedded as a total
function returning `none` where the source returns `None` (the source's
`try/except` can only return `None` on error, and no step of the body can
fail; `pd.DataFrame(rows, columns=headers)` is the pair of headers and
rows). -/

/-- The filter `[line for line in text.split("\n") if "|" in line and "---" not in line and line.strip()]`. -/
def tableLines (t : Str) : List Str :=
  (splitChar '\n' t).filter (fun line =>
    hasChar '|' line && !(isSubstr (strOf "---") line) && !(pyStrip line).isEmpty)

/-- The headers `[cell.strip() for cell in table_lines[0].split("|") if cell.strip()]`. -/
def headersOf (l : Str) : List Str :=
  ((splitChar '|' l).map pyStrip).filter (fun c => !c.isEmpty)

/-- The two `while` loops popping empty cells at the start and the end. -/
def trimEnds (cells : List Str) : List Str :=
  ((cells.dropWhile List.isEmpty).reverse.dropWhile List.isEmpty).reverse

/-- Pad with `""` up to `n` cells, then truncate to `n` cells. -/
def padTrunc (n : Nat) (cells : List Str) : List Str :=
  (cells ++ List.replicate (n - cells.length) []).take n

/-- One iteration of the row loop: `none` when the row has no meaningful
content (`any(cell.strip() for cell in cells)` is false) and is skipped. -/
def rowOf (n : Nat) (l : Str) : Option (List Str) :=
  let cells := padTrunc n (trimEnds ((splitChar '|' l).map pyStrip))
  if cells.any (fun c => !(pyStrip c).isEmpty) then some cells else none

def parse_markdown_table (t : Str) : Option (List Str × List (List Str)) :=
  match tableLines t with
  | [] => none
  | [_] => none
  | h :: rest =>
    let headers := headersOf h
    if headers.isEmpty then none
    else
      let rows := rest.filterMap (rowOf headers.length)
      if rows.isEmpty then none else some (headers, rows)

/-! The aggregation step of `main` (src/app.py:987-1159): per research
method, `all_emails.update(E)`, `all_phones.update(P)` and
`method_results[sourceId] = E` — the per-method map stores only the email
set. Python sets are embedded as `Finset`, the `method_results` dict as a
function to `Option`. -/

structure SourceResult where
  sourceId : String
  emails : Finset Str
  phones : Finset Str

structure AggregateResult where
  emails : Finset Str
  phones : Finset Str
  methodResults : String → Option (Finset Str)

/-- The empty result storage initialised before the method loop. -/
def emptyAgg : AggregateResult :=
  { emails := ∅, phones := ∅, methodResults := fun _ => none }

/-- Folding one source's results into the accumulated state, exactly as
each method block of `main` does. -/
def merge (R : AggregateResult) (S : SourceResult) : AggregateResult :=
  { emails := R.emails ∪ S.emails
    phones := R.phones ∪ S.phones
    methodResults := fun id => if id = S.sourceId then some S.emails else R.methodResults id }

def foldAgg (srcs : List SourceResult) : AggregateResult :=
  srcs.foldl merge emptyAgg

/-- The list `found_by_methods` of the export loop (src/app.py:1309-1312): the
method identifiers whose stored email set contains the value. -/
def contributing (srcs : List SourceResult) (R : AggregateResult) (v : Str) : List String :=
  (srcs.map SourceResult.sourceId).filter (fun id =>
    match R.methodResults id with
    | some E => decide (v ∈ E)
    | none => false)

/-- Python `str.title()` on the single-word category names. -/
def titleCase (s : String) : String :=
  match s.toList with
  | [] => s
  | c :: rest => String.mk (c.toUpper :: rest)

structure ExportRecord where
  contact : Str
  kind : String
  category : String
  foundBy : String

/-- One email row of `export_data` (src/app.py:1314-1325), keeping the
fields the claims are about. -/
def emailRecord (srcs : List SourceResult) (R : AggregateResult) (e : Str) : ExportRecord :=
  { contact := e, kind := "Email", category := titleCase (assignCategory e),
    foundBy := String.intercalate ", " (contributing srcs R e) }

/-- One phone row of `export_data` (src/app.py:1328-1340): `Found_By` is
the fixed string `"multi-source"`. -/
def phoneRecord (p : Str) : ExportRecord :=
  { contact := p, kind := "Phone", category := "General", foundBy := "multi-source" }

/-!
Facts about the ASCII lowering `Char.toLower` and the string helpers,
used to relate a function applied to a string and to its lowercasing.
-/

theorem char_toNat_inj {a b : Char} (h : a.toNat = b.toNat) : a = b :=
  Char.ext (UInt32.ext h)

theorem toLower_toNat (c : Char) :
    (Char.toLower c).toNat = if 65 ≤ c.toNat ∧ c.toNat ≤ 90 then c.toNat + 32 else c.toNat := by
  unfold Char.toLower
  split
  · rename_i h
    have hv : (c.toNat + 32).isValidChar := by
      left
      have := h.2
      omega
    rw [if_pos ⟨h.1, h.2⟩]
    show (Char.ofNat (c.toNat + 32)).toNat = c.toNat + 32
    unfold Char.ofNat
    rw [dif_pos hv]
    simp [Char.ofNatAux, Char.toNat, UInt32.toNat]
  · rename_i h
    rw [if_neg h]

theorem toLower_idem (c : Char) : c.toLower.toLower = c.toLower := by
  apply char_toNat_inj
  rw [toLower_toNat, toLower_toNat]
  by_cases h : 65 ≤ c.toNat ∧ c.toNat ≤ 90
  · rw [if_pos h, if_neg (by omega)]
  · rw [if_neg h, if_neg h]

theorem toLower_eq_low {d : Char} (hd : d.toNat < 65) (c : Char) :
    (Char.toLower c = d) ↔ (c = d) := by
  constructor
  · intro h
    apply char_toNat_inj
    have := congrArg Char.toNat h
    rw [toLower_toNat] at this
    split at this <;> omega
  · intro h
    subst h
    apply char_toNat_inj
    rw [toLower_toNat]
    split <;> omega

theorem beq_toLower {sep : Char} (hinj : ∀ c, (Char.toLower c = sep) ↔ (c = sep)) (c : Char) :
    (Char.toLower c == sep) = (c == sep) := by
  by_cases h : c = sep
  · rw [h, (hinj sep).mpr rfl]
  · have h2 : Char.toLower c ≠ sep := fun hh => h ((hinj c).mp hh)
    simp [h, h2]

theorem hasChar_lower {sep : Char} (hinj : ∀ c, (Char.toLower c = sep) ↔ (c = sep)) (l : Str) :
    hasChar sep (lowerStr l) = hasChar sep l := by
  induction l with
  | nil => rfl
  | cons c rest ih =>
    simp only [hasChar, lowerStr, List.map_cons, List.any_cons] at *
    rw [ih, beq_toLower hinj c]

theorem splitChar_ne_nil (sep : Char) (l : Str) : splitChar sep l ≠ [] := by
  cases l with
  | nil => simp [splitChar]
  | cons c rest =>
    simp only [splitChar]
    cases h : splitChar sep rest with
    | nil => simp
    | cons a b => by_cases hc : c = sep <;> simp [hc]

theorem splitChar_lower {sep : Char} (hinj : ∀ c, (Char.toLower c = sep) ↔ (c = sep)) (l : Str) :
    splitChar sep (lowerStr l) = (splitChar sep l).map lowerStr := by
  induction l with
  | nil => rfl
  | cons c rest ih =>
    show splitChar sep (Char.toLower c :: lowerStr rest) = _
    simp only [splitChar, ih]
    cases h : splitChar sep rest with
    | nil => exact absurd h (splitChar_ne_nil sep rest)
    | cons a b =>
      simp only [List.map_cons]
      by_cases hc : c = sep
      · rw [if_pos ((hinj c).mpr hc), if_pos hc]
        simp [lowerStr]
      · rw [if_neg (fun hh => hc ((hinj c).mp hh)), if_neg hc]
        simp [lowerStr]

theorem lowerStr_idem (l : Str) : lowerStr (lowerStr l) = lowerStr l := by
  simp only [lowerStr, List.map_map]
  apply List.map_congr_left
  intro x _
  exact toLower_idem x

theorem toLower_eq_atsign (c : Char) : (Char.toLower c = '@') ↔ (c = '@') :=
  toLower_eq_low (by decide) c

theorem toLower_eq_dot (c : Char) : (Char.toLower c = '.') ↔ (c = '.') :=
  toLower_eq_low (by decide) c

/-- The validator gives the same verdict on a string and its lowercasing:
all its checks are case-insensitive, and lowering commutes with splitting
at the case-invariant separator characters. -/
theorem is_valid_email_lower (e : Str) :
    is_valid_email (lowerStr e) = is_valid_email e := by
  unfold is_valid_email
  rw [hasChar_lower toLower_eq_atsign, splitChar_lower toLower_eq_atsign,
    List.getElem?_map]
  cases h : (splitChar '@' e)[1]? with
  | none => rfl
  | some d1 =>
    simp only [Option.map_some']
    rw [hasChar_lower toLower_eq_dot, lowerStr_idem, lowerStr_idem]

/-! Invariants of the extractor's set-building folds. -/

theorem mem_sinsert {x y : Str} {l : List Str} (h : x ∈ sinsert y l) : x = y ∨ x ∈ l := by
  unfold sinsert at h
  split at h
  · exact Or.inr h
  · rcases List.mem_append.mp h with h1 | h2
    · exact Or.inr h1
    · exact Or.inl (List.mem_singleton.mp h2)

theorem sinsert_nodup {y : Str} {l : List Str} (h : l.Nodup) : (sinsert y l).Nodup := by
  unfold sinsert
  split
  · exact h
  · rename_i hy
    simpa using List.Nodup.append h (List.nodup_singleton y) (by simpa using hy)

/-- Everything the email fold adds has passed the validator and is its own
lowercasing. -/
theorem addCandidates_inv (cands : List Str) (acc : List Str)
    (hacc : ∀ e ∈ acc, is_valid_email e = true ∧ lowerStr e = e) :
    ∀ e ∈ addCandidates acc cands, is_valid_email e = true ∧ lowerStr e = e := by
  induction cands generalizing acc with
  | nil => exact hacc
  | cons c rest ih =>
    intro e he
    rw [addCandidates, List.foldl_cons] at he
    refine ih _ ?_ e he
    intro x hx
    split at hx
    · rename_i hc
      rcases mem_sinsert hx with h1 | h2
      · subst h1
        exact ⟨by rw [is_valid_email_lower]; exact hc, lowerStr_idem c⟩
      · exact hacc x h2
    · exact hacc x hx

/-- Everything the phone fold adds has passed the cleaned-length check. -/
theorem phoneAdd_inv (cands : List Str) (acc : List Str)
    (hacc : ∀ p ∈ acc, 10 ≤ (p.filter (fun c => c.isDigit || c == '+')).length) :
    ∀ p ∈ cands.foldl
        (fun (a : List Str) (ph : Str) =>
          let cleaned := ph.filter (fun c => c.isDigit || c == '+')
          if 10 ≤ cleaned.length then sinsert ph a else a) acc,
      10 ≤ (p.filter (fun c => c.isDigit || c == '+')).length := by
  induction cands generalizing acc with
  | nil => exact hacc
  | cons c rest ih =>
    intro p hp
    rw [List.foldl_cons] at hp
    refine ih _ ?_ p hp
    intro x hx
    simp only at hx
    split at hx
    · rename_i hc
      rcases mem_sinsert hx with h1 | h2
      · subst h1
        exact hc
      · exact hacc x h2
    · exact hacc x hx

theorem phoneAdd_nodup (cands : List Str) (acc : List Str) (hacc : acc.Nodup) :
    (cands.foldl
        (fun (a : List Str) (ph : Str) =>
          let cleaned := ph.filter (fun c => c.isDigit || c == '+')
          if 10 ≤ cleaned.length then sinsert ph a else a) acc).Nodup := by
  induction cands generalizing acc with
  | nil => exact hacc
  | cons c rest ih =>
    rw [List.foldl_cons]
    refine ih _ ?_
    simp only
    split
    · exact sinsert_nodup hacc
    · exact hacc

/-! Claim theorems. -/

/-- C6: validator test vectors — `info@example.com` is rejected (excluded
domain), `j.smith@acme.co` is accepted, `noreply@acme.com` is rejected
(placeholder pattern), and the malformed `not-an-email` is rejected; the
embedded validator is a total function, so a malformed candidate yields
`false` rather than an error, mirroring the source's guard and
`try/except`. -/
theorem email_validator_vectors :
    is_valid_email (strOf "info@example.com") = false
    ∧ is_valid_email (strOf "j.smith@acme.co") = true
    ∧ is_valid_email (strOf "noreply@acme.com") = false
    ∧ is_valid_email (strOf "not-an-email") = false :=
  ⟨by decide, by decide, by decide, by decide⟩

/-- C1 counterexample: `categorize({"john.smith@x.com"})` does not yield
`personal` — the technical rule-group matches first, because its
sub-pattern `it` occurs as a substring of `smith`, so the fallback is
never reached. -/
theorem categorize_john_smith_counterexample :
    categorize_emails [strOf "john.smith@x.com"]
        = [("technical", [strOf "john.smith@x.com"])]
    ∧ assignCategory (strOf "john.smith@x.com") ≠ "personal" :=
  ⟨by decide, by decide⟩

/-- C1 (amended): `categorize({"sales.hr@x.com"})` yields `sales` (the
`hr` rule-group would also match, but `sales` is tested earlier in the
fixed order); `categorize({"john.smith@x.com"})` yields `technical`
because the `it` sub-pattern matches inside `smith`; an address like
`john.doe@x.com`, whose local part matches no rule-group and has exactly
one dot, falls through to `personal`. -/
theorem categorize_precedence_amended :
    categorize_emails [strOf "sales.hr@x.com"] = [("sales", [strOf "sales.hr@x.com"])]
    ∧ isSubstr (strOf "hr") (lowerStr (strOf "sales.hr")) = true
    ∧ categorize_emails [strOf "john.smith@x.com"]
        = [("technical", [strOf "john.smith@x.com"])]
    ∧ categorize_emails [strOf "john.doe@x.com"] = [("personal", [strOf "john.doe@x.com"])] :=
  ⟨by decide, by decide, by decide, by decide⟩

/-- C7: extraction round-trip — on
`"Contact: john (at) acme (dot) com or call 555-123-4567"` the extractor
returns exactly the email set `{"john@acme.com"}` (reconstructed from the
`(at)`/`(dot)` form and lowercased) and exactly the phone candidate
`"555-123-4567"`, whose digits form `"5551234567"`. -/
theorem extraction_round_trip :
    extract_contacts_from_text
        (strOf "Contact: john (at) acme (dot) com or call 555-123-4567")
      = ([strOf "john@acme.com"], [strOf "555-123-4567"])
    ∧ (strOf "555-123-4567").filter Char.isDigit = strOf "5551234567" :=
  ⟨by decide, by decide⟩

/-- C2 counterexample: on input `"+49 1234567"` the extractor's phone set
contains `"+49 1234567"`, which has only 9 digits after stripping all
non-digit characters — the source's floor counts the plus sign. -/
theorem phone_floor_counterexample :
    strOf "+49 1234567" ∈ (extract_contacts_from_text (strOf "+49 1234567")).2
    ∧ ((strOf "+49 1234567").filter Char.isDigit).length < 10 :=
  ⟨by decide, by decide⟩

/-- C2 (amended): every phone candidate in the extractor's phone set has
at least 10 characters after removing the characters that are neither a
digit nor a plus sign — `re.sub(r'[^\d+]', '', phone)` keeps `'+'`, so
the sign counts toward the length-10 floor, and a `'+'`-prefixed
candidate can have as few as 9 digits. -/
theorem phone_floor_amended (text : Str) :
    ∀ p ∈ (extract_contacts_from_text text).2,
      10 ≤ (p.filter (fun c => c.isDigit || c == '+')).length := by
  unfold extract_contacts_from_text
  apply phoneAdd_inv
  intro p hp
  exact absurd hp (List.not_mem_nil p)

theorem phone_floor_amended_witness :
    strOf "+49 1234567" ∈ (extract_contacts_from_text (strOf "+49 1234567")).2
    ∧ 10 ≤ ((strOf "+49 1234567").filter (fun c => c.isDigit || c == '+')).length :=
  ⟨by decide, phone_floor_amended (strOf "+49 1234567") (strOf "+49 1234567") (by decide)⟩

/-- C3 counterexample: the aggregated phone set can hold two distinct
entries with equal stripped digit sequences — `"555-123-4567"` and
`"555.123.4567"` extracted from one text are both kept, so the
normalized-digit key is not used for deduplication. -/
theorem phone_digitkey_counterexample :
    strOf "555-123-4567"
        ∈ (extract_contacts_from_text (strOf "call 555-123-4567 or 555.123.4567")).2
    ∧ strOf "555.123.4567"
        ∈ (extract_contacts_from_text (strOf "call 555-123-4567 or 555.123.4567")).2
    ∧ strOf "555-123-4567" ≠ strOf "555.123.4567"
    ∧ (strOf "555-123-4567").filter (fun c => c.isDigit || c == '+')
        = (strOf "555.123.4567").filter (fun c => c.isDigit || c == '+') :=
  ⟨by decide, by decide, by decide, by decide⟩

/-- C3 (amended): phone deduplication is by the exact raw string only:
the extractor's phone set is duplicate-free (each raw string appears at
most once), but two differently formatted strings with equal stripped
digit sequences are distinct entries and may both appear. -/
theorem phone_dedup_amended (text : Str) :
    (extract_contacts_from_text text).2.Nodup := by
  unfold extract_contacts_from_text
  exact phoneAdd_nodup _ _ List.nodup_nil

/-- C10: the extractor's email output is pre-validated — every email in
the returned set satisfies `is_valid_email` and equals its own
lowercasing (the extractor validates each plain and de-obfuscated
candidate and inserts the lowercased form), so filtering the output
through the validator again is the identity. -/
theorem extractor_prevalidated (text : Str) :
    (∀ e ∈ (extract_contacts_from_text text).1,
        is_valid_email e = true ∧ lowerStr e = e)
    ∧ (extract_contacts_from_text text).1.filter is_valid_email
        = (extract_contacts_from_text text).1 := by
  have h : ∀ e ∈ (extract_contacts_from_text text).1,
      is_valid_email e = true ∧ lowerStr e = e := by
    unfold extract_contacts_from_text
    apply addCandidates_inv
    apply addCandidates_inv
    apply addCandidates_inv
    apply addCandidates_inv
    intro e he
    exact absurd he (List.not_mem_nil e)
  exact ⟨h, List.filter_eq_self.mpr (fun a ha => (h a ha).1)⟩

theorem extractor_prevalidated_witness :
    strOf "john@acme.com"
        ∈ (extract_contacts_from_text
            (strOf "Contact: john (at) acme (dot) com or call 555-123-4567")).1
    ∧ is_valid_email (strOf "john@acme.com") = true
    ∧ lowerStr (strOf "john@acme.com") = strOf "john@acme.com" :=
  ⟨by decide,
   (extractor_prevalidated
      (strOf "Contact: john (at) acme (dot) com or call 555-123-4567")).1
     (strOf "john@acme.com") (by decide)⟩

/-! Aggregation lemmas. -/

theorem agg_eq {A B : AggregateResult} (he : A.emails = B.emails) (hp : A.phones = B.phones)
    (hm : A.methodResults = B.methodResults) : A = B := by
  cases A
  cases B
  simp_all

/-- A stored per-method entry always comes from one of the folded sources
(or from the initial state). -/
theorem foldl_merge_mr_some (srcs : List SourceResult) (R : AggregateResult) (id : String)
    (E : Finset Str) (h : (srcs.foldl merge R).methodResults id = some E) :
    (∃ s ∈ srcs, s.sourceId = id ∧ s.emails = E) ∨ R.methodResults id = some E := by
  induction srcs generalizing R with
  | nil => exact Or.inr h
  | cons s rest ih =>
    rw [List.foldl_cons] at h
    rcases ih (merge R s) h with h1 | h2
    · obtain ⟨t, ht, h3⟩ := h1
      exact Or.inl ⟨t, List.mem_cons_of_mem _ ht, h3⟩
    · simp only [merge] at h2
      by_cases hid : id = s.sourceId
      · rw [if_pos hid] at h2
        exact Or.inl ⟨s, List.mem_cons_self s rest, hid.symm, Option.some_inj.mp h2⟩
      · rw [if_neg hid] at h2
        exact Or.inr h2

/-- Folding sources with pairwise-distinct identifiers preserves the
invariant that every accumulated email is recorded under some method. -/
theorem foldl_merge_email_inv (srcs : List SourceResult) (R : AggregateResult)
    (hfresh : ∀ s ∈ srcs, R.methodResults s.sourceId = none)
    (hnd : (srcs.map SourceResult.sourceId).Nodup)
    (hinv : ∀ e ∈ R.emails, ∃ id E, R.methodResults id = some E ∧ e ∈ E) :
    ∀ e ∈ (srcs.foldl merge R).emails,
      ∃ id E, (srcs.foldl merge R).methodResults id = some E ∧ e ∈ E := by
  induction srcs generalizing R with
  | nil => exact hinv
  | cons s rest ih =>
    rw [List.foldl_cons]
    simp only [List.map_cons, List.nodup_cons] at hnd
    apply ih
    · intro t ht
      have hne : t.sourceId ≠ s.sourceId := by
        intro hh
        exact hnd.1 (hh ▸ List.mem_map_of_mem SourceResult.sourceId ht)
      show (merge R s).methodResults t.sourceId = none
      simp only [merge]
      rw [if_neg hne]
      exact hfresh t (List.mem_cons_of_mem _ ht)
    · exact hnd.2
    · intro e he
      simp only [merge] at he
      rcases Finset.mem_union.mp he with h1 | h2
      · obtain ⟨id, E, hm, hE⟩ := hinv e h1
        have hne : id ≠ s.sourceId := by
          intro hh
          rw [hh, hfresh s (List.mem_cons_self s rest)] at hm
          exact Option.noConfusion hm
        refine ⟨id, E, ?_, hE⟩
        simp only [merge]
        rw [if_neg hne]
        exact hm
      · exact ⟨s.sourceId, s.emails, by simp [merge], h2⟩

/-- C5 counterexample: two SourceResults with the same sourceId but
different email sets merge non-commutatively — the per-source map keeps
whichever was merged last, so the two orders give different provenance. -/
theorem merge_comm_counterexample :
    ¬ (merge (merge emptyAgg ⟨"s", {strOf "a@x.com"}, ∅⟩) ⟨"s", {strOf "b@x.com"}, ∅⟩
        = merge (merge emptyAgg ⟨"s", {strOf "b@x.com"}, ∅⟩) ⟨"s", {strOf "a@x.com"}, ∅⟩) := by
  intro h
  have h2 := congrFun (congrArg AggregateResult.methodResults h) "s"
  simp only [merge, emptyAgg, if_pos rfl] at h2
  have h3 : ({strOf "b@x.com"} : Finset Str) = {strOf "a@x.com"} := Option.some_inj.mp h2
  have h4 : strOf "b@x.com" ∈ ({strOf "a@x.com"} : Finset Str) :=
    h3 ▸ Finset.mem_singleton_self _
  exact absurd h4 (by decide)

/-- C5 (amended): merging a SourceResult into an AggregateResult twice
equals merging it once, and merging two SourceResults with distinct
sourceIds is commutative — the same final emails, phones and per-source
map; with equal sourceIds the later merge overwrites the earlier entry,
so commutativity holds only for distinct identifiers. -/
theorem merge_idem_and_comm :
    (∀ (R : AggregateResult) (S : SourceResult), merge (merge R S) S = merge R S)
    ∧ (∀ A B : SourceResult, A.sourceId ≠ B.sourceId →
        merge (merge emptyAgg A) B = merge (merge emptyAgg B) A) := by
  constructor
  · intro R S
    apply agg_eq
    · simp [merge, Finset.union_assoc]
    · simp [merge, Finset.union_assoc]
    · funext id
      simp only [merge]
      by_cases h : id = S.sourceId <;> simp [h]
  · intro A B hAB
    apply agg_eq
    · simp only [merge, emptyAgg, Finset.empty_union]
      exact Finset.union_comm _ _
    · simp only [merge, emptyAgg, Finset.empty_union]
      exact Finset.union_comm _ _
    · funext id
      simp only [merge]
      rcases eq_or_ne id B.sourceId with h1 | h1
      · rcases eq_or_ne id A.sourceId with h2 | h2
        · exact absurd (h2.symm.trans h1) hAB
        · simp [h1, h2, Ne.symm hAB]
      · rcases eq_or_ne id A.sourceId with h2 | h2
        · simp [h1, h2, hAB]
        · simp [h1, h2]

theorem merge_idem_and_comm_witness :
    ("whois" : String) ≠ "web_search"
    ∧ merge (merge emptyAgg ⟨"whois", {strOf "a@x.com"}, ∅⟩)
          ⟨"web_search", {strOf "b@x.com"}, ∅⟩
        = merge (merge emptyAgg ⟨"web_search", {strOf "b@x.com"}, ∅⟩)
            ⟨"whois", {strOf "a@x.com"}, ∅⟩
    ∧ merge (merge emptyAgg ⟨"whois", {strOf "a@x.com"}, ∅⟩)
          ⟨"whois", {strOf "a@x.com"}, ∅⟩
        = merge emptyAgg ⟨"whois", {strOf "a@x.com"}, ∅⟩ :=
  ⟨by decide, merge_idem_and_comm.2 _ _ (by decide), merge_idem_and_comm.1 _ _⟩

/-- C4 counterexample: a phone value put into the aggregate never appears
in any per-method entry — the per-method map stores only email sets, so
the phone's derived provenance is empty, and its exported record carries
the fixed label `"multi-source"` rather than its contributing sources. -/
theorem provenance_phone_counterexample :
    strOf "555-123-4567"
        ∈ (foldAgg [⟨"website_scraping", ∅, {strOf "555-123-4567"}⟩]).phones
    ∧ (∀ (id : String) (E : Finset Str),
        (foldAgg [⟨"website_scraping", ∅, {strOf "555-123-4567"}⟩]).methodResults id
            = some E →
          strOf "555-123-4567" ∉ E)
    ∧ (phoneRecord (strOf "555-123-4567")).foundBy = "multi-source" := by
  refine ⟨by decide, ?_, rfl⟩
  intro id E h
  simp only [foldAgg, List.foldl_cons, List.foldl_nil, merge, emptyAgg] at h
  split at h
  · obtain rfl : (∅ : Finset Str) = E := Option.some_inj.mp h
    simp
  · exact Option.noConfusion h

/-- C4 (amended): for a fold over SourceResults with pairwise-distinct
identifiers, every accumulated email has a non-empty list of contributing
sources (exactly what the export writes into `Found_By`); a value that no
source reported as an email — in particular any phone value — has an
empty contributing list, and every exported phone record carries the
fixed string `"multi-source"` instead of its sources. -/
theorem provenance_amended :
    (∀ srcs : List SourceResult, (srcs.map SourceResult.sourceId).Nodup →
        ∀ e ∈ (foldAgg srcs).emails, contributing srcs (foldAgg srcs) e ≠ [])
    ∧ (∀ (srcs : List SourceResult) (p : Str), (∀ s ∈ srcs, p ∉ s.emails) →
        contributing srcs (foldAgg srcs) p = [])
    ∧ (∀ p : Str, (phoneRecord p).foundBy = "multi-source") := by
  refine ⟨?_, ?_, fun _ => rfl⟩
  · intro srcs hnd e he
    obtain ⟨id, E, hm, hE⟩ :=
      foldl_merge_email_inv srcs emptyAgg (fun _ _ => rfl) hnd (by simp [emptyAgg]) e he
    have hm2 : (foldAgg srcs).methodResults id = some E := hm
    rcases foldl_merge_mr_some srcs emptyAgg id E hm with ⟨s, hs, hsid, _⟩ | habs
    · intro hnil
      have hmem : id ∈ contributing srcs (foldAgg srcs) e := by
        unfold contributing
        apply List.mem_filter.mpr
        refine ⟨hsid ▸ List.mem_map_of_mem SourceResult.sourceId hs, ?_⟩
        rw [hm2]
        simpa using hE
      rw [hnil] at hmem
      exact absurd hmem (List.not_mem_nil id)
    · exact absurd habs (by simp [emptyAgg])
  · intro srcs p hp
    unfold contributing
    rw [List.filter_eq_nil_iff]
    intro id hid
    cases hmr : (foldAgg srcs).methodResults id with
    | none => simp
    | some E =>
      rcases foldl_merge_mr_some srcs emptyAgg id E hmr with ⟨s, hs, _, hse⟩ | habs
      · have hpe : p ∉ E := hse ▸ hp s hs
        simp [hpe]
      · exact absurd habs (by simp [emptyAgg])

theorem provenance_amended_witness :
    (([⟨"whois", {strOf "ceo@acme.com"}, ∅⟩] : List SourceResult).map
        SourceResult.sourceId).Nodup
    ∧ strOf "ceo@acme.com" ∈ (foldAgg [⟨"whois", {strOf "ceo@acme.com"}, ∅⟩]).emails
    ∧ contributing [⟨"whois", {strOf "ceo@acme.com"}, ∅⟩]
        (foldAgg [⟨"whois", {strOf "ceo@acme.com"}, ∅⟩]) (strOf "ceo@acme.com") ≠ [] :=
  ⟨by decide, by decide, provenance_amended.1 _ (by decide) _ (by decide)⟩

theorem mem_dropWhile_of_not {α : Type} {p : α → Bool} {c : α} {l : List α}
    (hc : c ∈ l) (hw : p c = false) : c ∈ l.dropWhile p := by
  rcases List.mem_append.mp ((List.takeWhile_append_dropWhile p l) ▸ hc) with h1 | h2
  · exact absurd (List.mem_takeWhile_imp h1) (by simp [hw])
  · exact h2

theorem pyStrip_eq_nil_iff (l : Str) : pyStrip l = [] ↔ ∀ c ∈ l, isPySpace c = true := by
  unfold pyStrip
  rw [List.reverse_eq_nil_iff, List.dropWhile_eq_nil_iff]
  constructor
  · intro h c hc
    rcases List.mem_append.mp ((List.takeWhile_append_dropWhile isPySpace l) ▸ hc) with h1 | h2
    · exact List.mem_takeWhile_imp h1
    · exact h c ((List.mem_reverse).mpr h2)
  · intro h x hx
    exact h x ((List.dropWhile_sublist _).subset ((List.mem_reverse).mp hx))

theorem mem_pyStrip_of_not_ws {c : Char} {l : Str} (hc : c ∈ l) (hw : isPySpace c = false) :
    c ∈ pyStrip l := by
  unfold pyStrip
  rw [List.mem_reverse]
  apply mem_dropWhile_of_not _ hw
  rw [List.mem_reverse]
  exact mem_dropWhile_of_not hc hw

theorem trimEnds_subset (cells : List Str) : ∀ c ∈ trimEnds cells, c ∈ cells := by
  intro c hc
  unfold trimEnds at hc
  rw [List.mem_reverse] at hc
  have hc2 := (List.dropWhile_sublist _).subset hc
  rw [List.mem_reverse] at hc2
  exact (List.dropWhile_sublist _).subset hc2

theorem trimEnds_head (cells : List Str) (hne : trimEnds cells ≠ []) :
    ∃ h t, trimEnds cells = h :: t ∧ h.isEmpty = false := by
  unfold trimEnds at *
  cases hf : cells.dropWhile List.isEmpty with
  | nil =>
    rw [hf] at hne
    simp at hne
  | cons a t =>
    have ha : a.isEmpty = false := by
      have hh := List.head?_dropWhile_not List.isEmpty cells
      rw [hf] at hh
      simpa using hh
    rw [List.reverse_cons, List.dropWhile_append]
    split
    · refine ⟨a, [], ?_, ha⟩
      simp [List.dropWhile_cons, ha]
    · refine ⟨a, ((List.reverse t).dropWhile List.isEmpty).reverse, ?_, ha⟩
      simp

theorem padTrunc_length (n : Nat) (cells : List Str) : (padTrunc n cells).length = n := by
  simp only [padTrunc, List.length_take, List.length_append, List.length_replicate]
  omega

theorem padTrunc_eq (n : Nat) (cells : List Str) :
    padTrunc n cells = cells.take n ++ List.replicate (n - cells.length) ([] : Str) := by
  unfold padTrunc
  rw [List.take_append_eq_append_take]
  congr 1
  apply List.take_of_length_le
  simp

theorem padTrunc_mem_head (n : Nat) (h : Str) (t : List Str) (hn : 1 ≤ n) :
    h ∈ padTrunc n (h :: t) := by
  unfold padTrunc
  cases n with
  | zero => omega
  | succ m =>
    rw [List.cons_append, List.take_succ_cons]
    exact List.mem_cons_self h _

theorem rowOf_some_length {n : Nat} {l : Str} {r : List Str} (h : rowOf n l = some r) :
    r.length = n := by
  simp only [rowOf] at h
  split at h
  · exact (Option.some_inj.mp h) ▸ padTrunc_length n _
  · exact Option.noConfusion h

theorem rowOf_some_nonempty {n : Nat} {l : Str} {r : List Str} (h : rowOf n l = some r) :
    ∃ c ∈ r, pyStrip c ≠ [] := by
  simp only [rowOf] at h
  split at h
  · rename_i hany
    obtain rfl := Option.some_inj.mp h
    obtain ⟨c, hc, hcp⟩ := List.any_eq_true.mp hany
    refine ⟨c, hc, ?_⟩
    simpa using hcp
  · exact Option.noConfusion h

theorem rowOf_none_all_empty (n : Nat) (l : Str) (hn : 1 ≤ n) (h : rowOf n l = none) :
    ∀ c ∈ (splitChar '|' l).map pyStrip, c = [] := by
  by_contra hcon
  push_neg at hcon
  obtain ⟨c0, hc0, hc0ne⟩ := hcon
  have hc0tr : c0 ∈ trimEnds ((splitChar '|' l).map pyStrip) := by
    unfold trimEnds
    rw [List.mem_reverse]
    apply mem_dropWhile_of_not _ (by simpa using hc0ne)
    rw [List.mem_reverse]
    exact mem_dropWhile_of_not hc0 (by simpa using hc0ne)
  obtain ⟨hh, tt, htrim, hhe⟩ :=
    trimEnds_head _ (List.ne_nil_of_mem hc0tr)
  obtain ⟨x, hx, hpx⟩ := List.mem_map.mp (trimEnds_subset _ hh (htrim ▸ List.mem_cons_self hh tt))
  have hxnw : ¬ ∀ cch ∈ x, isPySpace cch = true := by
    intro hall
    have h0 : pyStrip x = [] := (pyStrip_eq_nil_iff x).mpr hall
    rw [hpx] at h0
    rw [h0] at hhe
    simp at hhe
  push_neg at hxnw
  obtain ⟨cw, hcw, hcwns⟩ := hxnw
  have hcwhh : cw ∈ hh := hpx ▸ mem_pyStrip_of_not_ws hcw (by simpa using hcwns)
  have hstriphh : pyStrip hh ≠ [] := by
    intro hnil
    have := (pyStrip_eq_nil_iff hh).mp hnil cw hcwhh
    rw [this] at hcwns
    simp at hcwns
  have hmem : hh ∈ padTrunc n (trimEnds ((splitChar '|' l).map pyStrip)) :=
    htrim ▸ padTrunc_mem_head n hh tt hn
  simp only [rowOf] at h
  split at h
  · exact Option.noConfusion h
  · rename_i hany
    exact hany (List.any_eq_true.mpr ⟨hh, hmem, by simpa using hstriphh⟩)

/-- C8: Report Parser totality and absent results — the embedded
`parse_markdown_table` is a total function (the source body cannot raise;
its `try/except` merely returns `None`), and it returns `none` when fewer
than two usable table lines remain, and `none` when every data line is
dropped as empty after trimming, so malformed text degrades to "no table
found" rather than an error. -/
theorem parser_absent (t : Str) :
    ((tableLines t).length < 2 → parse_markdown_table t = none)
    ∧ (∀ h rest, tableLines t = h :: rest →
        (∀ l ∈ rest, rowOf (headersOf h).length l = none) →
        parse_markdown_table t = none) := by
  constructor
  · intro hlen
    unfold parse_markdown_table
    rcases htl : tableLines t with _ | ⟨h1, _ | ⟨h2, rest⟩⟩
    · rfl
    · rfl
    · rw [htl] at hlen
      simp at hlen
      omega
  · intro h rest htl hrows
    unfold parse_markdown_table
    rw [htl]
    cases rest with
    | nil => rfl
    | cons r rs =>
      have hrows2 : (r :: rs).filterMap (rowOf (headersOf h).length) = [] :=
        List.filterMap_eq_nil_iff.mpr (fun l hl => hrows l hl)
      by_cases hh : (headersOf h).isEmpty
      · simp [hh]
      · simp [hh, hrows2]

/-- C9: row normalization — every row of a parsed table has exactly the
header's number of cells and at least one cell with non-blank content;
padding appends empty strings up to the header width and truncation cuts
to it; a data line is dropped only when all its cells are empty; and the
three-row table with one short row yields that row padded with an empty
string, not dropped. -/
theorem row_normalization :
    (∀ t hd rows, parse_markdown_table t = some (hd, rows) →
        ∀ r ∈ rows, r.length = hd.length ∧ ∃ c ∈ r, pyStrip c ≠ [])
    ∧ (∀ (n : Nat) (cells : List Str),
        padTrunc n cells = cells.take n ++ List.replicate (n - cells.length) [])
    ∧ (∀ (n : Nat) (l : Str), 1 ≤ n → rowOf n l = none →
        ∀ c ∈ (splitChar '|' l).map pyStrip, c = [])
    ∧ parse_markdown_table (strOf "| A | B | C |\n|---|---|---|\n| 1 | 2 | 3 |\n| 4 | 5 |")
        = some ([strOf "A", strOf "B", strOf "C"],
                [[strOf "1", strOf "2", strOf "3"], [strOf "4", strOf "5", []]]) := by
  refine ⟨?_, padTrunc_eq, rowOf_none_all_empty, by decide⟩
  intro t hd rows hp r hr
  unfold parse_markdown_table at hp
  rcases htl : tableLines t with _ | ⟨h1, _ | ⟨h2, rest⟩⟩
  · rw [htl] at hp
    exact Option.noConfusion hp
  · rw [htl] at hp
    exact Option.noConfusion hp
  · rw [htl] at hp
    by_cases hh : (headersOf h1).isEmpty
    · simp only [hh, if_true] at hp
      exact Option.noConfusion hp
    · simp only [hh, if_false, Bool.false_eq_true] at hp
      by_cases hre : ((h2 :: rest).filterMap (rowOf (headersOf h1).length)).isEmpty
      · simp only [hre, if_true] at hp
        exact Option.noConfusion hp
      · simp only [hre, if_false, Bool.false_eq_true] at hp
        obtain ⟨hhd, hrows⟩ := Prod.mk.injEq .. ▸ Option.some_inj.mp hp
        subst hhd
        rw [← hrows] at hr
        obtain ⟨l, hl, hrow⟩ := List.mem_filterMap.mp hr
        exact ⟨rowOf_some_length hrow, rowOf_some_nonempty hrow⟩

theorem parser_absent_witness :
    (tableLines (strOf "no table here")).length < 2
    ∧ parse_markdown_table (strOf "no table here") = none :=
  ⟨by decide, (parser_absent (strOf "no table here")).1 (by decide)⟩

theorem row_normalization_witness :
    ([strOf "4", strOf "5", ([] : Str)] : List Str).length
        = ([strOf "A", strOf "B", strOf "C"] : List Str).length
    ∧ ∃ c ∈ ([strOf "4", strOf "5", ([] : Str)] : List Str), pyStrip c ≠ [] :=
  row_normalization.1
    (strOf "| A | B | C |\n|---|---|---|\n| 1 | 2 | 3 |\n| 4 | 5 |")
    [strOf "A", strOf "B", strOf "C"]
    [[strOf "1", strOf "2", strOf "3"], [strOf "4", strOf "5", []]]
    (by decide) [strOf "4", strOf "5", []] (by decide)
